import Mathlib

/-
  Shallow embedding of `src/Statement.ts` of the `iam-policies` repository.

  The TypeScript source operates on JavaScript strings, objects and RegExp
  values.  The embedding models:
    * JS runtime values (`Value`) as a tagged union, property access with JS
      property-key coercion, JS truthiness and JS `String(...)` coercion;
    * the two module-level regular expressions (`reDelimiters`, `trim`) used
      by `applyContext`/`specialTrim` as explicit left-to-right scanners with
      the exact alternation/greediness behaviour of the JS regex engine;
    * `RegExp` pattern compilation (`new RegExp('^' + re + '$')`) as a parser
      into a small automaton (`RegexC`) covering exactly the constructs the
      wildcard translator emits for ordinary pattern characters: literal
      characters, `.` (any character except a line terminator), the token
      `[^/]*?` and the leading `(?=.)` guard.  Strings outside this sublanguage
      (groups, alternation, stray quantifiers or anchors) take the
      `try { new RegExp } catch` failure branch of `Matcher.parse`.
  Strings are processed as `List Char`; machine work stays executable so that
  every concrete claim instance evaluates by `decide`/`rfl`.
-/

namespace IamPolicies

/-! ### Characters and small string utilities -/

/-- The `{` character (written via its code point, as required for brace text). -/
def lbrace : Char := Char.ofNat 123

/-- The `}` character. -/
def rbrace : Char := Char.ofNat 125

/-- JS `LineTerminator` characters, which `.` in a regex does not match. -/
def isLineTerm (c : Char) : Bool :=
  c = '\n' || c = '\r' || c = Char.ofNat 0x2028 || c = Char.ofNat 0x2029

/-- JS whitespace (`\s`, and the set trimmed by `String.prototype.trim`),
restricted to the code points relevant here. -/
def isJsWS (c : Char) : Bool :=
  c = ' ' || c = '\t' || c = '\n' || c = '\r' || c = Char.ofNat 11 ||
  c = Char.ofNat 12 || c = Char.ofNat 0xa0 || c = Char.ofNat 0xfeff

/-- `String.prototype.trim`: strip leading and trailing whitespace. -/
def jsTrim (l : List Char) : List Char :=
  ((l.dropWhile isJsWS).reverse.dropWhile isJsWS).reverse

/-- Index of the first occurrence of `c`, like `String.prototype.indexOf`
(restricted to a single-character needle). -/
def idxOf? (c : Char) : List Char → Option Nat
  | [] => none
  | d :: rest => if d = c then some 0 else (idxOf? c rest).map (· + 1)

/-- `String.prototype.indexOf(c, start)`. -/
def idxOfFrom? (c : Char) (l : List Char) (start : Nat) : Option Nat :=
  (idxOf? c (l.drop start)).map (· + start)

/-- `String.prototype.split` with a single-character separator. -/
def splitOnChar (sep : Char) : List Char → List (List Char)
  | [] => [[]]
  | c :: rest =>
    if c = sep then [] :: splitOnChar sep rest
    else
      match splitOnChar sep rest with
      | [] => [[c]]
      | h :: t => (c :: h) :: t

/-- Digits-only string to `Nat` (used for JS array indexing by property key). -/
def digitsToNat? (l : List Char) : Option Nat :=
  if l.isEmpty then none
  else if l.all (fun c => c.isDigit) then
    some (l.foldl (fun acc c => acc * 10 + (c.toNat - 48)) 0)
  else none

/-! ### JS values

Context data, condition values and resolver arguments are arbitrary JS
values.  `Value` is the tagged union recommended for them; `getProp`, `truthy`
and `valueToString` embed JS property access, truthiness and `String(...)`.
`ValueList`/`FieldList` are mutually defined with `Value` so that all
operations are plain structural (hence executable and kernel-reducible)
recursions. -/

mutual

/-- A JS runtime value (the `any`-typed data the source passes around). -/
inductive Value where
  | vundefined : Value
  | vnull : Value
  | vbool : Bool → Value
  | vnum : Int → Value
  | vstr : String → Value
  | varr : ValueList → Value
  | vobj : FieldList → Value

/-- The elements of a JS array value. -/
inductive ValueList where
  | nil : ValueList
  | cons : Value → ValueList → ValueList

/-- The own properties of a JS object value, in insertion order. -/
inductive FieldList where
  | nil : FieldList
  | cons : String → Value → FieldList → FieldList

end

/-- JS truthiness of a value. -/
def truthy : Value → Bool
  | .vundefined => false
  | .vnull => false
  | .vbool b => b
  | .vnum n => decide (n ≠ 0)
  | .vstr s => !s.isEmpty
  | .varr _ => true
  | .vobj _ => true

mutual

/-- JS `String(v)`. -/
def valueToString : Value → String
  | .vundefined => "undefined"
  | .vnull => "null"
  | .vbool b => cond b "true" "false"
  | .vnum n => toString n
  | .vstr s => s
  | .varr es => arrJoin es
  | .vobj _ => "[object Object]"

/-- `Array.prototype.toString`: elements joined with commas, with
`undefined`/`null` elements rendering as the empty string. -/
def arrJoin : ValueList → String
  | .nil => ""
  | .cons v rest =>
    (match v with
     | .vundefined => ""
     | .vnull => ""
     | w => valueToString w) ++
    (match rest with
     | .nil => ""
     | _ => "," ++ arrJoin rest)

end

/-- Object own-property lookup where, as for JS object literals, a later
binding of the same key wins. -/
def flLookup : FieldList → String → Option Value
  | .nil, _ => none
  | .cons k v rest, key =>
    match flLookup rest key with
    | some v' => some v'
    | none => if k = key then some v else none

/-- Indexing into a JS array, `undefined` out of bounds. -/
def vlGet : ValueList → Nat → Value
  | .nil, _ => .vundefined
  | .cons v _, 0 => v
  | .cons _ rest, n + 1 => vlGet rest n

/-- JS property access `v[key]` for a string property key: object field
lookup, numeric indexing of arrays and strings, `undefined` otherwise. -/
def getProp : Value → String → Value
  | .vobj fs, k => (flLookup fs k).getD .vundefined
  | .varr es, k =>
    match digitsToNat? k.toList with
    | some i => vlGet es i
    | none => .vundefined
  | .vstr s, k =>
    match digitsToNat? k.toList with
    | some i =>
      if i < s.toList.length then .vstr (String.mk [s.toList.getD i ' '])
      else .vundefined
    | none => .vundefined
  | _, _ => .vundefined

/-- Array rendering used by `getValueFromPath` when the resolved value is an
array: the template literal `` `{${value}}` ``. -/
def braceWrapArr (es : ValueList) : String :=
  "\x7b" ++ valueToString (.varr es) ++ "\x7d"

/-- `getValueFromPath(data, path)` from the source.  `path.split('.')` is
reduced **without an initial accumulator** (`Array.prototype.reduce` then
starts from the first key, a plain string), and the callback indexes the
original `data` by the accumulated value at every step, coercing it to a
property key. -/
def getValueFromPath (data : Value) (path : String) : Value :=
  let keys := (splitOnChar '.' path.toList).map String.mk
  let v :=
    match keys with
    | [] => Value.vundefined
    | k :: rest =>
      rest.foldl
        (fun acc nextChild =>
          let dk := getProp data (valueToString acc)
          if truthy dk then getProp dk nextChild else .vundefined)
        (Value.vstr k)
  match v with
  | .varr es => .vstr (braceWrapArr es)
  | _ => v

/-! ### `applyContext` (template interpolation)

`reDelimiters = /\${([^}])*}/g`: a global replace scanning left to right; a
match starts at `${` and extends to the first following `}`.  `specialTrim`
applies `/ +(?= )|^\s+|\s+$/g`, i.e. at each position the three alternatives
are tried in order with the regex engine's leftmost-alternative greedy
semantics. -/

/-- Length of the run of space characters (exactly `' '`) at the head. -/
def countSpaces : List Char → Nat
  | ' ' :: rest => countSpaces rest + 1
  | _ => 0

/-- One pass of `str.replace(/ +(?= )|^\s+|\s+$/g, '')` over the original
string; `atStart` records whether the scanner still sits at position 0 (where
alone `^` can match).  The fuel is the remaining length, and every branch
consumes at least one character. -/
def stF : Nat → Bool → List Char → List Char
  | 0, _, l => l
  | _ + 1, _, [] => []
  | n + 1, atStart, c :: rest =>
    let r := countSpaces (c :: rest)
    if 2 ≤ r then
      -- ` +(?= )` greedily deletes the run minus its final space.
      stF n false (List.drop (r - 1) (c :: rest))
    else if atStart && isJsWS c then
      -- `^\s+` deletes the maximal leading whitespace run.
      stF n false ((c :: rest).dropWhile isJsWS)
    else if isJsWS c && (c :: rest).all isJsWS then
      -- `\s+$` deletes a whitespace run that reaches the end.
      []
    else c :: stF n false rest

/-- `specialTrim` from the source. -/
def specialTrim (l : List Char) : List Char := stF l.length true l

/-- The global `reDelimiters` replace: each `${…}` occurrence (up to the
nearest `}`) is replaced by `String(getValueFromPath(context, path))`;
scanning resumes after the closing brace, and substituted text is not
rescanned. -/
def interpF (ctx : Value) : Nat → List Char → List Char
  | 0, l => l
  | _ + 1, [] => []
  | n + 1, c :: rest =>
    if c = '$' then
      match rest with
      | c2 :: rest2 =>
        if c2 = lbrace then
          match idxOf? rbrace rest2 with
          | some i =>
            let body := rest2.take i
            let after := rest2.drop (i + 1)
            (valueToString (getValueFromPath ctx (String.mk body))).toList ++
              interpF ctx n after
          | none => c :: interpF ctx n rest
        else c :: interpF ctx n rest
      | [] => [c]
    else c :: interpF ctx n rest

/-- `applyContext(str, context?)`: identity without a context; otherwise
substitute all `${path}` occurrences and run `specialTrim`. -/
def applyContext (s : String) (ctx : Option Value) : String :=
  match ctx with
  | none => s
  | some c => String.mk (specialTrim (interpF c s.toList.length s.toList))

/-! ### The compiled-regex sublanguage

`Matcher.parse` builds a regex source string from the alternative (each `*`
becomes `[^/]*?`, every other character is copied verbatim), optionally
prepends `(?=.)`, and compiles `'^' + re + '$'`.  `regexParse` embeds the host
regex compiler on this sublanguage: a leading `^`, an optional `(?=.)` guard,
a body of `[^/]*?` tokens, `.`, `\`-escapes and ordinary literal characters,
and a final `$`.  A body using constructs outside this sublanguage (stray
anchors or quantifiers, groups, classes, alternation) is treated as the
`try { new RegExp(...) } catch` failure branch. -/

/-- One element of a compiled regex body. -/
inductive RElem where
  | lit : Char → RElem
  | dot : RElem
  | starNS : RElem
deriving DecidableEq

/-- A compiled anchored regex `^(?=.)?…$`: the optional non-empty lookahead
and the body elements. -/
structure RegexC where
  guard : Bool
  elems : List RElem
deriving DecidableEq

/-- Resolution of a regex escape `\c`: control escapes resolve to control
characters, class/backreference escapes fall outside the sublanguage, any
other character is an identity escape. -/
def escChar (c : Char) : Option Char :=
  if c = 'n' then some '\n'
  else if c = 't' then some '\t'
  else if c = 'r' then some '\r'
  else if c = 'v' then some (Char.ofNat 11)
  else if c = 'f' then some (Char.ofNat 12)
  else if c = '0' then some (Char.ofNat 0)
  else if c ∈ ['d', 'D', 's', 'S', 'w', 'W', 'b', 'B', 'c', 'x', 'u', 'p',
                'P', 'k', '1', '2', '3', '4', '5', '6', '7', '8', '9'] then none
  else some c

/-- Characters that are not plain one-character atoms in a regex body. -/
def isRegexMeta (c : Char) : Bool :=
  c = '^' || c = '$' || c = '*' || c = '+' || c = '?' || c = '(' || c = ')' ||
  c = '[' || c = ']' || c = '|' || c = '\\' || c = lbrace || c = rbrace

/-- Parse a regex body in the emitted sublanguage. -/
def regexParseBody : List Char → Option (List RElem)
  | [] => some []
  | '[' :: '^' :: '/' :: ']' :: '*' :: '?' :: rest =>
    (regexParseBody rest).map (.starNS :: ·)
  | '.' :: rest => (regexParseBody rest).map (.dot :: ·)
  | '\\' :: c :: rest =>
    match escChar c with
    | some d => (regexParseBody rest).map (.lit d :: ·)
    | none => none
  | c :: rest =>
    if isRegexMeta c then none else (regexParseBody rest).map (.lit c :: ·)

/-- The `(?=.)` source token. -/
def guardToken : List Char := ['(', '?', '=', '.', ')']

/-- The `[^/]*?` source token emitted for `*`. -/
def starToken : List Char := ['[', '^', '/', ']', '*', '?']

/-- Parse a full `'^' + re + '$'` source string, i.e. `new RegExp` on the
emitted sublanguage; `none` is the compilation-failure case. -/
def regexParse (src : List Char) : Option RegexC :=
  match src with
  | '^' :: rest =>
    let g := match rest with
      | '(' :: '?' :: '=' :: '.' :: ')' :: _ => true
      | _ => false
    let rest' := if g then rest.drop 5 else rest
    match rest'.getLast? with
    | some c =>
      if c = '$' then (regexParseBody rest'.dropLast).map (RegexC.mk g)
      else none
    | none => none
  | _ => none

/-- Matching a regex body against a candidate, anchored at both ends.  The
fuel dominates `elems.length + s.length`; every call decreases it.  `[^/]*?`
is a lazy quantifier, but for anchored acceptance laziness only affects which
decomposition is found, not whether one exists, so acceptance is the
existence of a decomposition. -/
def reAcceptF : Nat → List RElem → List Char → Bool
  | 0, _, _ => false
  | _ + 1, [], s => s.isEmpty
  | _ + 1, .lit _ :: _, [] => false
  | n + 1, .lit c :: es, d :: ds => c = d && reAcceptF n es ds
  | _ + 1, .dot :: _, [] => false
  | n + 1, .dot :: es, d :: ds => !isLineTerm d && reAcceptF n es ds
  | n + 1, .starNS :: es, s =>
    reAcceptF n es s ||
      (match s with
       | [] => false
       | d :: ds => !(d = '/') && reAcceptF n (.starNS :: es) ds)

/-- Anchored acceptance of a regex body. -/
def reAccept (es : List RElem) (s : List Char) : Bool :=
  reAcceptF (es.length + s.length + 1) es s

/-- The `(?=.)` lookahead at position 0: there is a first character and `.`
matches it (so it is not a line terminator). -/
def guardOk : List Char → Bool
  | [] => false
  | c :: _ => !isLineTerm c

/-- Acceptance for a compiled anchored regex. -/
def rcAccept (rc : RegexC) (s : List Char) : Bool :=
  (if rc.guard then guardOk s else true) && reAccept rc.elems s

/-! ### Brace expansion -/

/-- The `Balance` record returned by `balanced` (only the found case; the
source's `start = end = -1` case is `none`). -/
structure Balance where
  start : Nat
  stop : Nat
  pre : List Char
  body : List Char
  post : List Char
deriving DecidableEq

/-- `range(a, b, str)` / `balanced(a, b, str)` from the source: the first
occurrence of `a` and the first occurrence of `b` strictly after it, with the
surrounding slices. -/
def balancedL (a b : Char) (l : List Char) : Option Balance :=
  match idxOfFrom? a l 0 with
  | none => none
  | some left =>
    match idxOfFrom? b l (left + 1) with
    | none => none
    | some right =>
      some ⟨left, right, l.take left, (l.drop (left + 1)).take (right - left - 1),
            l.drop (right + 1)⟩

/-- `/\$$/.test(pre)`: does the prefix end with a dollar sign? -/
def endsWithDollar (l : List Char) : Bool :=
  match l.getLast? with
  | some c => c = '$'
  | none => false

/-- `Matcher.expand`, with the remaining length as structural fuel (the
recursive call is on `post`, which is at least two characters shorter). -/
def expandF : Nat → Bool → List Char → List (List Char)
  | 0, _, l => [l]
  | n + 1, isTop, l =>
    match balancedL lbrace rbrace l with
    | none => [l]
    | some bal =>
      if endsWithDollar bal.pre then [l]
      else
        let parts := if bal.body.isEmpty then [[]] else splitOnChar ',' bal.body
        let postParts :=
          if 0 < bal.post.length then expandF n false bal.post else [[]]
        parts.flatMap (fun part =>
          postParts.filterMap (fun postPart =>
            let e := bal.pre ++ part ++ postPart
            if !isTop || !e.isEmpty then some e else none))

/-- `Matcher.expand(str, isTop)`. -/
def expandL (l : List Char) (isTop : Bool) : List (List Char) :=
  expandF l.length isTop l

/-- Does `}` occur before any line terminator? (used by the `/{.*}/` test:
`.` cannot cross a line terminator). -/
def closeBeforeLT : List Char → Bool
  | [] => false
  | c :: rest =>
    if c = rbrace then true
    else if isLineTerm c then false
    else closeBeforeLT rest

/-- `pattern.match(/{.*}/)` as a Boolean: some `{` is followed by a later `}`
with no line terminator strictly between them. -/
def hasBraceGroup : List Char → Bool
  | [] => false
  | c :: rest => (c = lbrace && closeBeforeLT rest) || hasBraceGroup rest

/-- `Matcher.braceExpand`: no brace group means a single alternative; a
pattern starting with the two characters `{}` has them backslash-escaped
before expansion. -/
def braceExpandL (pattern : List Char) : List (List Char) :=
  if !hasBraceGroup pattern then [pattern]
  else
    let p :=
      match pattern with
      | c1 :: c2 :: rest =>
        if c1 = lbrace && c2 = rbrace then
          '\\' :: lbrace :: '\\' :: rbrace :: rest
        else pattern
      | _ => pattern
    expandL p true

/-! ### Wildcard compilation (`Matcher.parse`) -/

/-- A compiled alternative: the exact-match string fast path, a compiled
regex, or the `new RegExp('$.')` fallback, which matches no string (it
requires a character after the end of input). -/
inductive Compiled where
  | lit : List Char → Compiled
  | regex : RegexC → Compiled
  | noMatch : Compiled
deriving DecidableEq

/-- `pattern.replace(/\\(.)/g, '$1')`: drop each backslash that precedes a
non-line-terminator character (`.` does not match line terminators, so a
backslash before one is kept). -/
def unescape : List Char → List Char
  | [] => []
  | '\\' :: c :: rest =>
    if isLineTerm c then '\\' :: c :: unescape rest else c :: unescape rest
  | c :: rest => c :: unescape rest

/-- The character-by-character translation loop of `Matcher.parse`: `*`
appends `[^/]*?` and sets the special-character flag, every other character
is appended verbatim (no escaping). -/
def buildRe (pattern : List Char) (flag : Bool) : List Char × Bool :=
  pattern.foldl
    (fun acc c =>
      if c = '*' then (acc.1 ++ starToken, true) else (acc.1 ++ [c], acc.2))
    ([], flag)

/-- `Matcher.parse(pattern)` with the instance field `hasSpecialCharacter`
made explicit: takes the flag on entry and returns it updated.  `none` is the
thrown `TypeError('pattern is too long')`. -/
def parseC (hasSpec : Bool) (pattern : List Char) : Option (Compiled × Bool) :=
  if 65536 < pattern.length then none
  else if pattern.isEmpty then some (.lit [], hasSpec)
  else
    let rb := buildRe pattern hasSpec
    let re := if !rb.1.isEmpty && rb.2 then guardToken ++ rb.1 else rb.1
    if !rb.2 then some (.lit (unescape pattern), rb.2)
    else
      match regexParse ('^' :: re ++ ['$']) with
      | some rc => some (.regex rc, rb.2)
      | none => some (.noMatch, rb.2)

/-- Falsiness of a compiled alternative (only the empty string is falsy;
`RegExp` objects are always truthy). -/
def isFalsyCompiled : Compiled → Bool
  | .lit [] => true
  | _ => false

/-- `set.map(val => this.parse(val))` with the mutable flag threaded through
the alternatives in order; a thrown oversize error propagates. -/
def goParse : Bool → List (List Char) → Option (List Compiled)
  | _, [] => some []
  | flag, a :: as =>
    match parseC flag a with
    | none => none
    | some (c, flag') => (goParse flag' as).map (c :: ·)

/-- A constructed `Matcher`: the trimmed pattern, the compiled set and the
empty-pattern flag. -/
structure Matcher where
  pattern : List Char
  set : List Compiled
  empty : Bool

/-- The `Matcher` constructor; `none` is a propagated oversize error. -/
def Matcher.mk? (pattern : String) : Option Matcher :=
  let t := jsTrim pattern.toList
  match goParse false (braceExpandL t) with
  | none => none
  | some set => some ⟨t, set.filter (fun c => !isFalsyCompiled c), t.isEmpty⟩

/-- `Matcher.matchOne(str, pattern)`. -/
def matchOne (s : List Char) : Compiled → Bool
  | .lit p => if p.isEmpty then false else decide (s = p)
  | .regex rc => rcAccept rc s
  | .noMatch => false

/-- `Matcher.match(str)`. -/
def Matcher.match (m : Matcher) (s : String) : Bool :=
  if m.empty then s.toList.isEmpty
  else m.set.any (fun c => matchOne s.toList c)

/-! ### Statement -/

/-- A statement's condition map: resolver name to (context path to expected
value), in insertion order. -/
abbrev CondMap := List (String × List (String × Value))

/-- The resolver table supplied at evaluation time. -/
abbrev ResolverMap := List (String × (Value → Value → Bool))

/-- Resolver lookup by name. -/
def lookupResolver : ResolverMap → String → Option (Value → Value → Bool)
  | [], _ => none
  | (k, f) :: rest, key => if k = key then some f else lookupResolver rest key

/-- A `Statement` as constructed: effect, resource patterns, action patterns,
optional condition map. -/
structure Statement where
  effect : String
  resource : List String
  action : List String
  condition : Option CondMap

/-- A `string | string[]` configuration field. -/
inductive OneOrMany where
  | one : String → OneOrMany
  | many : List String → OneOrMany

/-- The constructor's normalization: a single string becomes a one-element
list. -/
def normalizePatterns : OneOrMany → List String
  | .one s => [s]
  | .many l => l

/-- The `Statement` constructor: effect defaults to `allow`, patterns are
normalized, the condition map is stored as given. -/
def Statement.ofConfig (effect : Option String) (resource action : OneOrMany)
    (condition : Option CondMap) : Statement :=
  ⟨effect.getD "allow", normalizePatterns resource, normalizePatterns action,
   condition⟩

/-- `Array.prototype.some` with a predicate that may throw: elements in
order, stop at the first `true`, propagate a throw (`none`). -/
def someM (f : α → Option Bool) : List α → Option Bool
  | [] => some false
  | a :: as =>
    match f a with
    | none => none
    | some true => some true
    | some false => someM f as

/-- `Array.prototype.every` with a predicate that may throw. -/
def everyM (f : α → Option Bool) : List α → Option Bool
  | [] => some true
  | a :: as =>
    match f a with
    | none => none
    | some false => some false
    | some true => everyM f as

/-- The condition block of `Statement.matches`: for every condition name, for
every context path under it, call `conditionResolvers[name]` on the resolved
value and the expected value.  The resolver is looked up per call, so a name
missing from the table throws (`none`, the host `TypeError` on calling
`undefined`) exactly when a path under it is reached. -/
def condEval (cond : CondMap) (rs : ResolverMap) (ctx : Value) : Option Bool :=
  everyM
    (fun e =>
      everyM
        (fun pr =>
          (lookupResolver rs e.1).map
            (fun f => f (getValueFromPath ctx pr.1) pr.2))
        e.2)
    cond

/-- `Statement.matches(action, resource, context?, conditionResolvers?)`:
the action clause, then the resource clause, then (only when resolvers,
condition map and context are all present) the condition clause, conjoined
with left-to-right short-circuiting; `none` is a propagated throw. -/
def Statement.matches (st : Statement) (action resource : String)
    (ctx : Option Value) (rs : Option ResolverMap) : Option Bool :=
  match someM
      (fun a => (Matcher.mk? (applyContext a ctx)).map (fun m => m.match action))
      st.action with
  | none => none
  | some false => some false
  | some true =>
    match someM
        (fun r =>
          (Matcher.mk? (applyContext r ctx)).map (fun m => m.match resource))
        st.resource with
    | none => none
    | some false => some false
    | some true =>
      match rs, st.condition, ctx with
      | some rsv, some cond, some c => condEval cond rsv c
      | _, _, _ => some true

/-! ### Spec-side clause definitions (for the refinement claim C1)

These three definitions follow the specification's wording for the three
clauses of `Statement.matches`; the claim compares the source evaluator
against their conjunction. -/

/-- Spec wording: some pattern, after interpolation against the context,
compiles into a Matcher that matches the candidate (a pattern whose
compilation throws yields no matcher, hence no match). -/
def matchesPattern (p : String) (s : String) : Bool :=
  match Matcher.mk? p with
  | some m => m.match s
  | none => false

/-- Spec clause (i): some action pattern matches the action. -/
def actionClause (st : Statement) (action : String) (ctx : Option Value) : Bool :=
  st.action.any (fun p => matchesPattern (applyContext p ctx) action)

/-- Spec clause (ii): some resource pattern matches the resource. -/
def resourceClause (st : Statement) (resource : String) (ctx : Option Value) : Bool :=
  st.resource.any (fun p => matchesPattern (applyContext p ctx) resource)

/-- Spec clause (iii): when resolvers, condition map and context are all
present, every condition name and every context path under it satisfies the
named resolver; vacuously true otherwise. -/
def conditionClause (st : Statement) (ctx : Option Value)
    (rs : Option ResolverMap) : Bool :=
  match rs, st.condition, ctx with
  | some rsv, some cond, some c =>
    cond.all (fun e =>
      e.2.all (fun pr =>
        match lookupResolver rsv e.1 with
        | some f => f (getValueFromPath c pr.1) pr.2
        | none => false))
  | _, _, _ => true

/-! ### Concrete instances used by witnesses -/

/-- A context object with one field `user`, itself an object with the field
`role` bound to the string `admin`. -/
def ctxUserAdmin : Value :=
  .vobj (.cons "user" (.vobj (.cons "role" (.vstr "admin") .nil)) .nil)

/-- A string-equality condition resolver. -/
def strEqResolver : Value → Value → Bool := fun a b =>
  match a, b with
  | .vstr x, .vstr y => x = y
  | _, _ => false

/-- A statement with action, resource and one condition entry. -/
def stWitness : Statement :=
  ⟨"allow", ["docs/*"], ["read"],
   some [("stringEquals", [("user.role", .vstr "admin")])]⟩

/-- The resolver table for `stWitness`. -/
def rsWitness : ResolverMap := [("stringEquals", strEqResolver)]

/-- A 70000-character pattern (the oversized-alternative example). -/
def bigPattern : String := String.mk (List.replicate 70000 'a')

/-! ## Helper lemmas -/

/-- An index found by `idxOf?` is inside the list. -/
theorem idxOf?_lt_length {c : Char} : ∀ {l : List Char} {i : Nat},
    idxOf? c l = some i → i < l.length := by
  intro l
  induction l with
  | nil => intro i h; simp [idxOf?] at h
  | cons d rest ih =>
    intro i h
    simp only [idxOf?] at h
    by_cases hd : d = c
    · rw [if_pos hd] at h
      cases h
      simp
    · rw [if_neg hd] at h
      obtain ⟨j, hj, rfl⟩ := Option.map_eq_some'.mp h
      have := ih hj
      simp only [List.length_cons]
      omega

/-- The `post` slice of a successful `balanced` is at least two characters
shorter than the input. -/
theorem balancedL_post_length {a b : Char} {l : List Char} {bal : Balance}
    (h : balancedL a b l = some bal) : bal.post.length + 2 ≤ l.length := by
  unfold balancedL at h
  split at h
  · exact absurd h (by simp)
  next left hL =>
    split at h
    · exact absurd h (by simp)
    next right hR =>
      cases h
      unfold idxOfFrom? at hR
      obtain ⟨j, hj, hright⟩ := Option.map_eq_some'.mp hR
      have hjlt : j < (l.drop (left + 1)).length := idxOf?_lt_length hj
      simp only [List.length_drop] at hjlt
      simp only [List.length_drop]
      omega

/-- `expandF` does not depend on the fuel once the fuel covers the input
length. -/
theorem expandF_congr : ∀ (n m : Nat) (isTop : Bool) (l : List Char),
    l.length ≤ n → l.length ≤ m → expandF n isTop l = expandF m isTop l := by
  intro n
  induction n using Nat.strong_induction_on with
  | _ n ih =>
    intro m isTop l hn hm
    match n, m with
    | 0, 0 => rfl
    | 0, m + 1 =>
      have : l = [] := List.length_eq_zero.mp (Nat.le_zero.mp hn)
      subst this
      rfl
    | n + 1, 0 =>
      have : l = [] := List.length_eq_zero.mp (Nat.le_zero.mp hm)
      subst this
      rfl
    | n + 1, m + 1 =>
      show expandF (n + 1) isTop l = expandF (m + 1) isTop l
      simp only [expandF]
      cases hbal : balancedL lbrace rbrace l with
      | none => rfl
      | some bal =>
        have hpost := balancedL_post_length hbal
        by_cases hd : endsWithDollar bal.pre
        · simp [hd]
        · simp only [hd, if_false, Bool.false_eq_true]
          have hrec : expandF n false bal.post = expandF m false bal.post := by
            exact ih n (Nat.lt_succ_self n) m false bal.post (by omega) (by omega)
          rw [hrec]

/-! ## Claim C2

The claim says the empty-segment guard makes `Matcher("a/*").match("a/")`
return `false`.  In the source the `(?=.)` guard is prepended once to the
whole anchored regex (`'^(?=.)a/[^/]*?$'`), so it only requires the whole
candidate to start with a character; with `[^/]*?` matching the empty
segment, `"a/"` matches.  This contradicts both the claim and the source's
own comment ("Otherwise a/* will match a/, which it should not"), so the
claim is recorded as a code bug, with this theorem evaluating the code at
the failing input. -/

/-- C2: the code evaluates `Matcher("a/*").match("a/")` to `true` (the claim
and the source's own comment require `false`), and `.match("a/b")` to `true`
(as claimed). -/
theorem claim_C2 :
    (Matcher.mk? "a/*").map (fun m => m.match "a/") = some true ∧
    (Matcher.mk? "a/*").map (fun m => m.match "a/b") = some true := by
  exact ⟨by decide, by decide⟩

/-! ## Claim C3

`getValueFromPath` reduces `path.split('.')` **without an initial value**, so
the first accumulator is the first key itself, and each step indexes the
original `data` (not the value walked so far) by the accumulated value.
Hence a single-key path returns the key string itself, and a three-key path
coerces the intermediate object to the property key `"[object Object]"` and
resolves to `undefined`.  The claim describes a left-to-right nested walk (as
the spec's PathResolver section does), so the code contradicts the documented
intent; recorded as a code bug. -/

/-- C3: at context with field `k` bound to `"v"`, the single-key path `k`
resolves to the string `"k"` (the key itself), not `"v"`; at a nested
context, path `a.b.c` resolves to `undefined`, not the stored value; the
two-key path `a.b` happens to work. -/
theorem claim_C3 :
    getValueFromPath (.vobj (.cons "k" (.vstr "v") .nil)) "k" = .vstr "k" ∧
    getValueFromPath
      (.vobj (.cons "a"
        (.vobj (.cons "b" (.vobj (.cons "c" (.vstr "v") .nil)) .nil)) .nil))
      "a.b.c" = .vundefined ∧
    getValueFromPath
      (.vobj (.cons "a" (.vobj (.cons "b" (.vstr "v") .nil)) .nil))
      "a.b" = .vstr "v" :=
  ⟨rfl, rfl, rfl⟩

/-! ## Claim C6

`braceExpand` does escape a leading empty brace pair, but `balanced` is
backslash-blind: it still takes the escaped braces as the first group, so
the pattern collapses to the single alternative backslash-backslash-`abc`,
which unescapes to backslash-`abc`.  The match the claim (and the source's
own Bash-compatibility comment, and the spec's testable property) requires
therefore returns `false`; recorded as a code bug. -/

/-- C6: the code evaluates `Matcher` of leading-empty-brace-`abc` on the
input equal to the pattern to `false` (the claim requires `true`); the
matcher instead accepts backslash-`abc`. -/
theorem claim_C6 :
    (Matcher.mk? "\x7b\x7dabc").map (fun m => m.match "\x7b\x7dabc") =
      some false ∧
    (Matcher.mk? "\x7b\x7dabc").map (fun m => m.match "\\abc") = some true := by
  exact ⟨by decide, by decide⟩

/-! ## Claim C7 -/

/-- C7: `applyContext` with no context is the identity; with a context,
occurrences of a dollar-brace path are replaced by the string form of the
resolved value (shown on the spec's round-trip example, on a two-occurrence
pattern, and on an unresolvable path rendering as the literal text
`undefined`). -/
theorem claim_C7 :
    (∀ s : String, applyContext s none = s) ∧
    applyContext "user:$\x7buser.id\x7d"
      (some (.vobj (.cons "user" (.vobj (.cons "id" (.vstr "42") .nil)) .nil)))
      = "user:42" ∧
    applyContext "$\x7ba.b\x7d-$\x7ba.b\x7d"
      (some (.vobj (.cons "a" (.vobj (.cons "b" (.vstr "1") .nil)) .nil)))
      = "1-1" ∧
    applyContext "a$\x7bx.y\x7db" (some (.vobj .nil)) = "aundefinedb" :=
  ⟨fun _ => rfl, by decide, by decide, by decide⟩

/-! ## Claim C4

The claim's cross-product description omits the guard in `expand`: when the
text before the first brace group ends with a dollar sign
(`/\$$/.test(balance.pre)`), the pattern is returned whole, unexpanded.  The
counterexample exhibits this; the amended claim adds the proviso (and keeps
the top-level discard of empty concatenations, which the source applies). -/

/-- C4 counterexample: the pattern dollar-brace-`a,b`-brace is of the form
pre + group + post with parts `a`,`b`, so the claim requires the alternatives
dollar-`a` and dollar-`b`; the code returns the pattern whole because `pre`
ends with a dollar sign. -/
theorem claim_C4_cex :
    expandL "$\x7ba,b\x7d".toList true = ["$\x7ba,b\x7d".toList] ∧
    expandL "$\x7ba,b\x7d".toList true ≠ ["$a".toList, "$b".toList] := by
  exact ⟨by decide, by decide⟩

/-- C4 amended: brace expansion is the stated cross product **provided the
text before the group does not end with a dollar sign** (and, at top level,
empty concatenations are discarded, as the filter in the cross product
records); a pattern with no balanced group is its own single alternative; the
claim's concrete matcher consequences hold. -/
theorem claim_C4 (l : List Char) (isTop : Bool) (bal : Balance)
    (hbal : balancedL lbrace rbrace l = some bal)
    (hpre : endsWithDollar bal.pre = false) :
    (expandL l isTop =
      (if bal.body.isEmpty then [[]] else splitOnChar ',' bal.body).flatMap
        (fun part =>
          (if 0 < bal.post.length then expandL bal.post false
           else [[]]).filterMap
            (fun postPart =>
              if !isTop || !(bal.pre ++ part ++ postPart).isEmpty then
                some (bal.pre ++ part ++ postPart)
              else none))) ∧
    (∀ l' : List Char, balancedL lbrace rbrace l' = none →
      expandL l' isTop = [l']) ∧
    (Matcher.mk? "a\x7bb,c\x7dd").map (fun m => m.match "abd") = some true ∧
    (Matcher.mk? "a\x7bb,c\x7dd").map (fun m => m.match "acd") = some true ∧
    (Matcher.mk? "a\x7bb,c\x7dd").map (fun m => m.match "aed") = some false := by
  refine ⟨?_, ?_, by decide, by decide, by decide⟩
  · have hp := balancedL_post_length hbal
    unfold expandL
    obtain ⟨k, hk⟩ : ∃ k, l.length = k + 1 := ⟨l.length - 1, by omega⟩
    rw [hk]
    simp only [expandF, hbal, hpre, Bool.false_eq_true, if_false]
    rw [expandF_congr k bal.post.length false bal.post (by omega) (le_refl _)]
  · intro l' h
    unfold expandL
    cases hlen : l'.length with
    | zero => rfl
    | succ k => simp [expandF, h]

/-! ## Claim C5

The claim says every character other than `*` is escaped so that it matches
itself exactly.  The translation loop copies characters verbatim
(`re += c`) with no escaping, so in a starred alternative a character such as
`.` keeps its metacharacter meaning. -/

/-- C5 counterexample: the claim entails that the matcher for the pattern
star-dot accepts only candidates whose final character is a literal dot, so
it would reject `"ab"`; the code accepts it (`.` matches any character other
than a line terminator). -/
theorem claim_C5_cex :
    (Matcher.mk? "*.").map (fun m => m.match "ab") = some true := by decide

/-- Helper for the amended C5: acceptance of the compiled body of the
star-dot pattern on a two-character candidate starting with `a`. -/
theorem reAccept_starNS_dot (c : Char) :
    reAcceptF 5 [RElem.starNS, RElem.dot] ['a', c] = !isLineTerm c := by
  by_cases h : isLineTerm c = true
  · simp [reAcceptF, h]
  · simp [reAcceptF, h]

/-- C5 amended: characters other than `*` are copied into the matcher
expression verbatim and unescaped, so `.` in a starred alternative behaves as
the any-character metacharacter: the matcher for the star-dot pattern accepts
a two-character candidate `a`-then-`c` exactly when `c` is not a line
terminator — in particular for `c` not a literal dot. -/
theorem claim_C5 (c : Char) :
    (Matcher.mk? "*.").map (fun m => m.match (String.mk ['a', c])) =
      some (!isLineTerm c) := by
  have hm : Matcher.mk? "*." =
      some ⟨['*', '.'], [.regex ⟨true, [.starNS, .dot]⟩], false⟩ := rfl
  rw [hm]
  simp only [Option.map_some']
  congr 1
  show (true && reAcceptF 5 [RElem.starNS, RElem.dot] ['a', c] || false) =
    !isLineTerm c
  rw [Bool.true_and, Bool.or_false]
  exact reAccept_starNS_dot c

/-- C5 witness: the amended statement instantiated at the candidate `aX`. -/
theorem claim_C5_witness :
    (Matcher.mk? "*.").map (fun m => m.match (String.mk ['a', 'X'])) =
      some (!isLineTerm 'X') :=
  claim_C5 'X'

/-- C4 witness: the amended cross-product equation instantiated on the
claim's example pattern `a`-group-`b,c`-`d`. -/
theorem claim_C4_witness :
    balancedL lbrace rbrace "a\x7bb,c\x7dd".toList =
      some ⟨1, 5, "a".toList, "b,c".toList, "d".toList⟩ ∧
    endsWithDollar "a".toList = false ∧
    ((expandL "a\x7bb,c\x7dd".toList true =
      (if ("b,c".toList : List Char).isEmpty then [[]]
       else splitOnChar ',' "b,c".toList).flatMap
        (fun part =>
          (if 0 < ("d".toList : List Char).length then expandL "d".toList false
           else [[]]).filterMap
            (fun postPart =>
              if !true || !("a".toList ++ part ++ postPart).isEmpty then
                some ("a".toList ++ part ++ postPart)
              else none))) ∧
    (∀ l' : List Char, balancedL lbrace rbrace l' = none →
      expandL l' true = [l']) ∧
    (Matcher.mk? "a\x7bb,c\x7dd").map (fun m => m.match "abd") = some true ∧
    (Matcher.mk? "a\x7bb,c\x7dd").map (fun m => m.match "acd") = some true ∧
    (Matcher.mk? "a\x7bb,c\x7dd").map (fun m => m.match "aed") = some false) :=
  ⟨by decide, by decide,
   claim_C4 "a\x7bb,c\x7dd".toList true ⟨1, 5, "a".toList, "b,c".toList, "d".toList⟩
     (by decide) (by decide)⟩

/-! ## Claim C8 -/

/-- `Matcher.parse` throws exactly on alternatives longer than 65536. -/
theorem parseC_eq_none_iff (flag : Bool) (p : List Char) :
    parseC flag p = none ↔ 65536 < p.length := by
  simp only [parseC]
  split_ifs with h1 h2 h3 h4
  · simp [h1]
  · simp [h1]
  · simp [h1]
  · split <;> simp [h1]
  · split <;> simp [h1]

/-- Mapping `parse` over the alternatives throws exactly when some
alternative is oversized (regardless of the threaded flag). -/
theorem goParse_eq_none_iff : ∀ (flag : Bool) (alts : List (List Char)),
    goParse flag alts = none ↔ ∃ a ∈ alts, 65536 < a.length := by
  intro flag alts
  induction alts generalizing flag with
  | nil => simp [goParse]
  | cons a as ih =>
    simp only [goParse]
    cases hp : parseC flag a with
    | none =>
      have ha := (parseC_eq_none_iff flag a).mp hp
      simp [ha]
    | some cf =>
      obtain ⟨c, flag'⟩ := cf
      have hlen : ¬65536 < a.length := by
        intro hl
        rw [(parseC_eq_none_iff flag a).mpr hl] at hp
        exact Option.noConfusion hp
      simp only [Option.map_eq_none']
      rw [ih flag']
      simp [hlen]

/-- `Array.prototype.some` on a one-element array is the predicate at that
element. -/
theorem someM_singleton (f : α → Option Bool) (x : α) : someM f [x] = f x := by
  cases h : f x with
  | none => simp [someM, h]
  | some b => cases b <;> simp [someM, h]

/-- C8: when some brace-expanded alternative of the (trimmed) pattern
exceeds 65536 characters, `Matcher` construction throws (`none`), and so a
`Statement` whose action pattern list is that pattern propagates the throw
from `matches` instead of returning a Boolean. -/
theorem claim_C8 (p : String)
    (h : ∃ a ∈ braceExpandL (jsTrim p.toList), 65536 < a.length) :
    Matcher.mk? p = none ∧
    ∀ (eff : String) (res : List String) (cond : Option CondMap)
      (a r : String) (rs : Option ResolverMap),
      Statement.matches ⟨eff, res, [p], cond⟩ a r none rs = none := by
  have hmk : Matcher.mk? p = none := by
    simp only [Matcher.mk?]
    rw [(goParse_eq_none_iff false (braceExpandL (jsTrim p.toList))).mpr h]
  refine ⟨hmk, ?_⟩
  intro eff res cond a r rs
  unfold Statement.matches
  rw [someM_singleton, show applyContext p none = p from rfl, hmk]
  rfl

/-- Whitespace-trimming does not touch a run of `a` characters. -/
theorem dropWhile_isJsWS_replicate_a (n : Nat) :
    (List.replicate n 'a').dropWhile isJsWS = List.replicate n 'a' := by
  cases n with
  | zero => rfl
  | succ m =>
    rw [List.replicate_succ, List.dropWhile_cons]
    rw [show isJsWS 'a' = false from by decide]
    simp

/-- `String.prototype.trim` on a run of `a` characters. -/
theorem jsTrim_replicate_a (n : Nat) :
    jsTrim (List.replicate n 'a') = List.replicate n 'a' := by
  unfold jsTrim
  rw [dropWhile_isJsWS_replicate_a, List.reverse_replicate,
      dropWhile_isJsWS_replicate_a, List.reverse_replicate]

/-- A run of `a` characters contains no brace group. -/
theorem hasBraceGroup_replicate_a (n : Nat) :
    hasBraceGroup (List.replicate n 'a') = false := by
  induction n with
  | zero => rfl
  | succ m ih =>
    rw [List.replicate_succ]
    simp only [hasBraceGroup]
    rw [show (decide ('a' = lbrace)) = false from by decide, ih]
    simp

/-- A run of `a` characters brace-expands to itself alone. -/
theorem braceExpandL_replicate_a (n : Nat) :
    braceExpandL (List.replicate n 'a') = [List.replicate n 'a'] := by
  unfold braceExpandL
  rw [hasBraceGroup_replicate_a]
  simp

/-- C8 witness: the single 70000-character alternative of `bigPattern` is
oversized, so construction and `Statement.matches` throw. -/
theorem claim_C8_witness :
    (∃ a ∈ braceExpandL (jsTrim bigPattern.toList), 65536 < a.length) ∧
    Matcher.mk? bigPattern = none ∧
    Statement.matches ⟨"allow", ["r"], [bigPattern], none⟩ "a" "r" none none =
      none := by
  have hx : ∃ a ∈ braceExpandL (jsTrim bigPattern.toList), 65536 < a.length := by
    have h1 : bigPattern.toList = List.replicate 70000 'a' := rfl
    rw [h1, jsTrim_replicate_a, braceExpandL_replicate_a]
    refine ⟨List.replicate 70000 'a', List.mem_singleton.mpr rfl, ?_⟩
    rw [List.length_replicate]
    norm_num
  exact ⟨hx, (claim_C8 bigPattern hx).1,
    (claim_C8 bigPattern hx).2 "allow" ["r"] none "a" "r" none⟩

/-! ## Claim C9

`regexParse` embeds the host regex compiler on the emitted sublanguage; its
failure is the `try { new RegExp(...) } catch` branch, which substitutes
`new RegExp('$.')` — a regex demanding a character after the end of the
input, hence matching no string, embedded as `Compiled.noMatch`. -/

/-- C9: wildcard compilation throws only for oversized alternatives (so a
translation that fails to compile never raises); an alternative compiled to
the fallback matches no string; concretely, the matcher for star-openparen
(whose translation is an invalid matcher grammar) matches no candidate. -/
theorem claim_C9 :
    (∀ (flag : Bool) (p : List Char),
      (parseC flag p).isSome ↔ p.length ≤ 65536) ∧
    (∀ (flag : Bool) (p : List Char) (c : Compiled) (flag' : Bool),
      parseC flag p = some (c, flag') → c = Compiled.noMatch →
      ∀ s : List Char, matchOne s c = false) ∧
    (∀ s : String, (Matcher.mk? "*(").map (fun m => m.match s) = some false) := by
  refine ⟨?_, ?_, ?_⟩
  · intro flag p
    rw [Option.isSome_iff_ne_none, ne_eq, parseC_eq_none_iff]
    omega
  · intro flag p c flag' _ hc s
    subst hc
    rfl
  · intro s
    have hm : Matcher.mk? "*(" =
        some ⟨['*', '('], [Compiled.noMatch], false⟩ := rfl
    rw [hm]
    simp [Matcher.match, matchOne]

/-- C9 witness: instantiation at the star-openparen alternative. -/
theorem claim_C9_witness :
    (parseC true "*(".toList).isSome ∧
    matchOne ['x'] Compiled.noMatch = false ∧
    (Matcher.mk? "*(").map (fun m => m.match "x") = some false :=
  ⟨(claim_C9.1 true "*(".toList).mpr (by decide),
   claim_C9.2.1 true "*(".toList Compiled.noMatch true rfl rfl ['x'],
   claim_C9.2.2 "x"⟩

/-! ## Claim C10 -/

/-- The translation loop leaves a star-free alternative unchanged and keeps
the entry flag. -/
theorem buildRe_foldl_no_star : ∀ (p : List Char) (acc : List Char) (flag : Bool),
    (∀ c ∈ p, c ≠ '*') →
    p.foldl
      (fun acc c =>
        if c = '*' then (acc.1 ++ starToken, true) else (acc.1 ++ [c], acc.2))
      (acc, flag) = (acc ++ p, flag) := by
  intro p
  induction p with
  | nil => intro acc flag _; simp
  | cons c rest ih =>
    intro acc flag h
    have hc : ¬(c = '*') := h c (List.mem_cons_self c rest)
    simp only [List.foldl_cons, if_neg hc]
    rw [ih (acc ++ [c]) flag (fun d hd => h d (List.mem_cons_of_mem c hd))]
    simp

/-- `buildRe` on a star-free alternative. -/
theorem buildRe_no_star (p : List Char) (flag : Bool)
    (h : ∀ c ∈ p, c ≠ '*') : buildRe p flag = (p, flag) := by
  unfold buildRe
  rw [buildRe_foldl_no_star p [] flag h]
  simp

/-- C10: with the special-character flag already set by an earlier starred
alternative, a later star-free, non-empty, within-bounds alternative is never
compiled to the exact-match literal (it becomes a guarded anchored matcher,
or the match-nothing fallback), and the flag stays set; consequently the
matcher for brace-`a*`-comma-`b.c`-brace accepts `bXc`, the dot acting as a
metacharacter. -/
theorem claim_C10 (p : List Char) (h1 : p.isEmpty = false)
    (h2 : ∀ c ∈ p, c ≠ '*') (h3 : p.length ≤ 65536) :
    (∃ c : Compiled, parseC true p = some (c, true) ∧
      ∀ l : List Char, c ≠ .lit l) ∧
    (Matcher.mk? "\x7ba*,b.c\x7d").map (fun m => m.match "bXc") = some true := by
  refine ⟨?_, by decide⟩
  have hb : buildRe p true = (p, true) := buildRe_no_star p true h2
  simp only [parseC, hb, if_neg (show ¬65536 < p.length by omega), h1,
    Bool.false_eq_true, if_false, Bool.not_true]
  split
  · exact ⟨_, rfl, fun l h => Compiled.noConfusion h⟩
  · exact ⟨_, rfl, fun l h => Compiled.noConfusion h⟩

/-! ## Claim C1 -/

/-- When the predicate returns a Boolean on every element, the throwing
`some` is the pure existential `any`. -/
theorem someM_eq_any (f : α → Option Bool) (g : α → Bool) :
    ∀ xs : List α, (∀ x ∈ xs, f x = some (g x)) →
      someM f xs = some (xs.any g) := by
  intro xs
  induction xs with
  | nil => intro _; rfl
  | cons a as ih =>
    intro h
    have ha := h a (List.mem_cons_self a as)
    have hrest := fun x hx => h x (List.mem_cons_of_mem a hx)
    simp only [someM, ha, List.any_cons]
    cases hga : g a
    · simp [ih hrest]
    · simp

/-- When the predicate returns a Boolean on every element, the throwing
`every` is the pure universal `all`. -/
theorem everyM_eq_all (f : α → Option Bool) (g : α → Bool) :
    ∀ xs : List α, (∀ x ∈ xs, f x = some (g x)) →
      everyM f xs = some (xs.all g) := by
  intro xs
  induction xs with
  | nil => intro _; rfl
  | cons a as ih =>
    intro h
    have ha := h a (List.mem_cons_self a as)
    have hrest := fun x hx => h x (List.mem_cons_of_mem a hx)
    simp only [everyM, ha, List.all_cons]
    cases hga : g a
    · simp
    · simp [ih hrest]

/-- C1: under the claim's preconditions (patterns compile — no oversize
throw — and, when resolvers, condition map and context are all present,
every condition name has a resolver entry), `Statement.matches` returns
exactly the conjunction of the three spec clauses. -/
theorem claim_C1 (st : Statement) (action resource : String)
    (ctx : Option Value) (rs : Option ResolverMap)
    (hA : ∀ p ∈ st.action, (Matcher.mk? (applyContext p ctx)).isSome)
    (hR : ∀ p ∈ st.resource, (Matcher.mk? (applyContext p ctx)).isSome)
    (hC : ∀ rsv, rs = some rsv →
      ∀ e ∈ st.condition.getD [], (lookupResolver rsv e.1).isSome) :
    st.matches action resource ctx rs =
      some (actionClause st action ctx && resourceClause st resource ctx &&
            conditionClause st ctx rs) := by
  have hfa : ∀ p ∈ st.action,
      (Matcher.mk? (applyContext p ctx)).map (fun m => m.match action) =
        some (matchesPattern (applyContext p ctx) action) := by
    intro p hp
    obtain ⟨m, hm⟩ := Option.isSome_iff_exists.mp (hA p hp)
    simp [matchesPattern, hm]
  have hfr : ∀ p ∈ st.resource,
      (Matcher.mk? (applyContext p ctx)).map (fun m => m.match resource) =
        some (matchesPattern (applyContext p ctx) resource) := by
    intro p hp
    obtain ⟨m, hm⟩ := Option.isSome_iff_exists.mp (hR p hp)
    simp [matchesPattern, hm]
  have hA' := someM_eq_any _ _ st.action hfa
  have hR' := someM_eq_any _ _ st.resource hfr
  unfold Statement.matches
  rw [hA']
  cases hact : st.action.any
      (fun p => matchesPattern (applyContext p ctx) action) with
  | false => simp [actionClause, hact]
  | true =>
    rw [hR']
    cases hres : st.resource.any
        (fun p => matchesPattern (applyContext p ctx) resource) with
    | false => simp [actionClause, resourceClause, hact, hres]
    | true =>
      have hACl : actionClause st action ctx = true := hact
      have hRCl : resourceClause st resource ctx = true := hres
      simp only [hACl, hRCl, Bool.true_and]
      cases hrs : rs with
      | none => simp [conditionClause]
      | some rsv =>
        cases hcond : st.condition with
        | none => simp [conditionClause, hcond]
        | some cond =>
          cases hctx : ctx with
          | none => simp [conditionClause, hcond]
          | some c =>
            have hC' := hC rsv hrs
            rw [hcond] at hC'
            simp only [Option.getD_some] at hC'
            have hce : condEval cond rsv c =
                some (cond.all (fun e => e.2.all (fun pr =>
                  match lookupResolver rsv e.1 with
                  | some f => f (getValueFromPath c pr.1) pr.2
                  | none => false))) := by
              unfold condEval
              apply everyM_eq_all
              intro e he
              obtain ⟨f, hf⟩ := Option.isSome_iff_exists.mp (hC' e he)
              exact everyM_eq_all _ _ e.2 (fun pr _ => by rw [hf]; rfl)
            simp [conditionClause, hcond, hce]

/-- C1 witness: the conjunction-of-clauses equation instantiated on a
concrete statement with one action pattern, one wildcard resource pattern and
one string-equality condition. -/
theorem claim_C1_witness :
    Statement.matches stWitness "read" "docs/readme" (some ctxUserAdmin)
      (some rsWitness) =
      some (actionClause stWitness "read" (some ctxUserAdmin) &&
            resourceClause stWitness "docs/readme" (some ctxUserAdmin) &&
            conditionClause stWitness (some ctxUserAdmin) (some rsWitness)) :=
  claim_C1 stWitness "read" "docs/readme" (some ctxUserAdmin) (some rsWitness)
    (by decide) (by decide)
    (by intro rsv h1; injection h1 with h1'; subst h1'; decide)

/-- C10 witness: instantiation at the star-free alternative `b.c` with the
flag set. -/
theorem claim_C10_witness :
    (("b.c".toList.isEmpty = false) ∧ (∀ c ∈ "b.c".toList, c ≠ '*') ∧
      "b.c".toList.length ≤ 65536) ∧
    ((∃ c : Compiled, parseC true "b.c".toList = some (c, true) ∧
        ∀ l : List Char, c ≠ .lit l) ∧
     (Matcher.mk? "\x7ba*,b.c\x7d").map (fun m => m.match "bXc") = some true) :=
  ⟨⟨by decide, by decide, by decide⟩,
   claim_C10 "b.c".toList (by decide) (by decide) (by decide)⟩

end IamPolicies
